import Mathlib

/-!
Verification of the index and coded-group-key model of
pangeo_forge_recipes/types.py, shallowly embedded in Lean.

Modelling conventions:
* Python strings are Lean String values where only equality and
  lexicographic code-point order matter (Dimension names), and List Char
  values where character-level processing matters (the codec).  UTF-8
  encode/decode round trips byte-for-byte and is modelled as the identity.
* Python int is Int, Python bool is Bool.
* An operation that can raise returns Option or Except; a returned none
  or Except.error models the raised exception.
* hash(x) for the frozen dataclasses and for Index is a deterministic pure
  function of the tuple of fields (resp. of the sorted item list), so it is
  modelled by that tuple itself: two values hash equal in Python iff their
  modelled hash keys are equal.
* Whitespace stripping and underscore digit separators accepted by the
  Python integer parsers are not modelled; no claim involves them.
-/

namespace PangeoForge

/-- CombineOp enumeration: MERGE = 1, CONCAT = 2, SUBSET = 3. -/
inductive CombineOp where
  | MERGE
  | CONCAT
  | SUBSET
deriving DecidableEq

/-- Numeric value carried by each enum member. -/
def CombineOp.value : CombineOp → Nat
  | .MERGE => 1
  | .CONCAT => 2
  | .SUBSET => 3

/-- Python Enum defines no order operators, so comparing two CombineOp
members with the less-than operator raises TypeError; modelled as none. -/
def CombineOp.lt? (_ _ : CombineOp) : Option Bool := none

/-- Dimension: frozen ordered dataclass with fields name and operation.
Equality is structural over both fields. -/
structure Dimension where
  name : String
  operation : CombineOp
deriving DecidableEq

/-- Generated dataclass less-than: lexicographic comparison of the field
tuples (name, operation).  When the names are equal and the operations
differ, the generated code compares the two CombineOp members, which
raises TypeError (none). -/
def Dimension.lt? (a b : Dimension) : Option Bool :=
  if a.name = b.name then
    (if a.operation = b.operation then some false
     else CombineOp.lt? a.operation b.operation)
  else some (decide (a.name < b.name))

/-- Dataclass hash input for Dimension: the tuple of its fields. -/
def Dimension.hashKey (d : Dimension) : String × CombineOp :=
  (d.name, d.operation)

/-- Python values of class Position (fields value, indexed) or of its
subclass IndexedPosition (fields value, indexed, dimsize).  The class of
the object is part of the value, because the generated dataclass equality
and ordering compare classes with the identity test. -/
inductive PyPosition where
  | mk (value : Int) (indexed : Bool)
  | mkIndexed (value : Int) (indexed : Bool) (dimsize : Int)
deriving DecidableEq

/-- Position constructor; the source default for indexed is False. -/
def Position (value : Int) (indexed : Bool) : PyPosition :=
  PyPosition.mk value indexed

/-- IndexedPosition constructor; the source defaults are indexed = True,
dimsize = 0. -/
def IndexedPosition (value : Int) (indexed : Bool) (dimsize : Int) : PyPosition :=
  PyPosition.mkIndexed value indexed dimsize

/-- Python equality between two position objects.  The generated dataclass
eq returns NotImplemented unless both operands have exactly the same
class, in which case it compares the full field tuples; two distinct
objects of different classes therefore compare unequal (identity
fallback).  This is exactly structural equality of PyPosition. -/
def pyPosEq (a b : PyPosition) : Bool := decide (a = b)

/-- Dataclass hash input for a position object: the tuple of all fields of
its class (dimsize included for IndexedPosition). -/
def PyPosition.hashKey : PyPosition → List Int
  | .mk v i => [v, if i then 1 else 0]
  | .mkIndexed v i d => [v, if i then 1 else 0, d]

/-- Generated dataclass less-than for positions: defined only between two
objects of exactly the same class (lexicographic field-tuple order with
False < True for bools); comparing a Position with an IndexedPosition
raises TypeError (none). -/
def PyPosition.lt? : PyPosition → PyPosition → Option Bool
  | .mk v i, .mk w j =>
      some (if v = w then (if i = j then false else (!i && j))
            else decide (v < w))
  | .mkIndexed v i d, .mkIndexed w j e =>
      some (if v = w then
              (if i = j then (if d = e then false else decide (d < e))
               else (!i && j))
            else decide (v < w))
  | _, _ => none

/-- Python comparison of two (Dimension, Position) items, as performed by
sorted(self.items()): tuple order compares the dimensions first (moving to
the positions only when the dimensions are equal). -/
def pairLt? (a b : Dimension × PyPosition) : Option Bool :=
  if a.1 = b.1 then PyPosition.lt? a.2 b.2 else Dimension.lt? a.1 b.1

/-- Strict order on items by dimension name; this is the order that the
item sort realises whenever all dimension names are distinct. -/
def nameLtP (a b : Dimension × PyPosition) : Prop :=
  a.1.name < b.1.name

/-- Insertion step of the sort, threading the possibility that the Python
comparison raises TypeError. -/
def orderedInsertPy (a : Dimension × PyPosition) :
    List (Dimension × PyPosition) → Option (List (Dimension × PyPosition))
  | [] => some [a]
  | b :: l =>
    match pairLt? a b with
    | none => none
    | some true => some (a :: b :: l)
    | some false => (orderedInsertPy a l).map (fun t => b :: t)

/-- Model of Python sorted() on item lists: returns the sorted list, or
none when some executed comparison raises TypeError. -/
def sortPy : List (Dimension × PyPosition) → Option (List (Dimension × PyPosition))
  | [] => some []
  | a :: l => (sortPy l).bind (orderedInsertPy a)

/-- An Index is a dict from Dimension to Position; entries is the item
list in insertion order.  Values built with buildIndex have unique keys
like a real dict; the type itself does not force that, so the
defensive branch of find_concat_dim stays expressible. -/
structure Index where
  entries : List (Dimension × PyPosition)
deriving DecidableEq

/-- Keys of the index in insertion order. -/
def Index.keys (i : Index) : List Dimension := i.entries.map Prod.fst

/-- Python dict item assignment: overwrite the value in place when the key
is already present (keeping its position), otherwise append. -/
def dictInsert (e : List (Dimension × PyPosition)) (k : Dimension)
    (v : PyPosition) : List (Dimension × PyPosition) :=
  if k ∈ e.map Prod.fst then
    e.map (fun p => if p.1 = k then (k, v) else p)
  else e ++ [(k, v)]

/-- Build an Index by inserting the given pairs in order into an empty
dict (last write for a duplicate Dimension wins). -/
def buildIndex (l : List (Dimension × PyPosition)) : Index :=
  ⟨l.foldl (fun e p => dictInsert e p.1 p.2) []⟩

/-- Python dict lookup: value of the first (for dicts, the unique) entry
carrying the key. -/
def dictGet (e : List (Dimension × PyPosition)) (k : Dimension) :
    Option PyPosition :=
  (e.find? (fun p => decide (p.1 = k))).map Prod.snd

/-- Python dict equality (Index defines no eq of its own, so dict eq
applies): the same keys are mapped to the same values. -/
def Index.pyEq (i j : Index) : Prop :=
  ∀ k, dictGet i.entries k = dictGet j.entries k

/-- Index getstate: sorted(self.items()); none models the TypeError
raised when the sort compares two unorderable keys. -/
def Index.getstate (i : Index) : Option (List (Dimension × PyPosition)) :=
  sortPy i.entries

/-- Index hash: hash(tuple(self.getstate())), a pure function of
getstate; modelled by the state list it is computed from. -/
def Index.hashKey (i : Index) : Option (List (Dimension × PyPosition)) :=
  Index.getstate i

/-- Index setstate: re-initialise the dict from the state pairs. -/
def Index.setstate (st : List (Dimension × PyPosition)) : Index :=
  buildIndex st

/-- Keys of the index whose name equals dim_name and whose operation is
CONCAT, in iteration order (the possible_concat_dims list). -/
def concatMatches (i : Index) (dim_name : String) : List Dimension :=
  i.keys.filter
    (fun d => decide (d.name = dim_name) && decide (d.operation = CombineOp.CONCAT))

/-- find_concat_dim: the single matching concat dimension, none when
there is no match, and a raised ValueError when more than one key
matches (concatMatches is the possible_concat_dims list). -/
def Index.find_concat_dim (i : Index) (dim_name : String) :
    Except String (Option Dimension) :=
  if 1 < (concatMatches i dim_name).length then
    Except.error ("Found " ++ toString (concatMatches i dim_name).length
      ++ " concat dims named " ++ dim_name ++ " in the index.")
  else if (concatMatches i dim_name).length = 0 then Except.ok none
  else Except.ok (concatMatches i dim_name).head?

/-- Python str.upper restricted to the basic latin range, applied
characterwise (the utf-8 encode/decode pair around it is the identity). -/
def pyUpper (s : List Char) : List Char := s.map Char.toUpper

/-- Value of a character as a digit in Python integer literals (digits
and letters; the letter case is irrelevant). -/
def digitVal? (c : Char) : Option Nat :=
  if '0' ≤ c ∧ c ≤ '9' then some (c.toNat - 48)
  else if 'a' ≤ c ∧ c ≤ 'z' then some (c.toNat - 87)
  else if 'A' ≤ c ∧ c ≤ 'Z' then some (c.toNat - 55)
  else none

/-- Accumulating digit parser: every character must be a digit below the
base. -/
def parseDigitsAux (b : Nat) : Nat → List Char → Option Nat
  | acc, [] => some acc
  | acc, c :: cs =>
    match digitVal? c with
    | some d => if d < b then parseDigitsAux b (b * acc + d) cs else none
    | none => none

/-- Nonempty digit string in the given base. -/
def parseDigits (b : Nat) : List Char → Option Nat
  | [] => none
  | c :: cs => parseDigitsAux b 0 (c :: cs)

/-- Digit character for a value below 16 (0-9 then lowercase letters),
as printed by bin(). -/
def digitChar (d : Nat) : Char :=
  if d < 10 then Char.ofNat (48 + d) else Char.ofNat (87 + d)

/-- Digit string of n in the given base, most significant digit first;
zero prints as a single 0 digit. -/
def natStr (b n : Nat) : List Char :=
  if n = 0 then ['0'] else (Nat.digits b n).reverse.map digitChar

/-- Optional sign of a Python integer literal. -/
def pySign (s : List Char) : Bool × List Char :=
  match s with
  | c :: t => if c = '-' then (true, t) else if c = '+' then (false, t) else (false, s)
  | [] => (false, s)

/-- Attach a parsed sign to a parsed magnitude. -/
def applySign (neg : Bool) (n : Nat) : Int :=
  if neg then -(n : Int) else (n : Int)

/-- int(s): fixed base-10 integer literal; anything else (including 0x,
0o, 0b prefixed literals) raises ValueError. -/
def pyIntBase10 (s : List Char) : Option Int :=
  let p := pySign s
  (parseDigits 10 p.2).map (applySign p.1)

/-- Unprefixed part of the base-detecting grammar: a decimal literal,
which must not have a leading zero unless it is entirely zeros. -/
def decimalNoPrefix (body : List Char) : Option Nat :=
  if body.all (fun c => decide (c = '0')) then parseDigits 10 body
  else if body.head? = some '0' then none
  else parseDigits 10 body

/-- int(s, base=0): base-detecting integer literal grammar; the prefixes
0x, 0o, 0b select base 16, 8, 2 and no prefix selects base 10. -/
def pyIntBase0 (s : List Char) : Option Int :=
  let p := pySign s
  let mag : Option Nat :=
    match p.2 with
    | c0 :: c1 :: r =>
      if c0 = '0' ∧ (c1 = 'x' ∨ c1 = 'X') then parseDigits 16 r
      else if c0 = '0' ∧ (c1 = 'o' ∨ c1 = 'O') then parseDigits 8 r
      else if c0 = '0' ∧ (c1 = 'b' ∨ c1 = 'B') then parseDigits 2 r
      else decimalNoPrefix (c0 :: c1 :: r)
    | body => decimalNoPrefix body
  mag.map (applySign p.1)

/-- bin(v): binary literal of v with the 0b prefix and, for negative v, a
leading minus sign. -/
def pyBin (v : Int) : List Char :=
  if v < 0 then '-' :: '0' :: 'b' :: natStr 2 (-v).toNat
  else '0' :: 'b' :: natStr 2 v.toNat

/-- CodedGroupItem: named integer component of a flattened group key. -/
structure CodedGroupItem where
  name : List Char
  val : Int
deriving DecidableEq

/-- from_literal: uppercase the name (the utf-8 round trip is the
identity) and pass the integer through int(bin(i_val), base=0). -/
def CodedGroupItem.from_literal (s_name : List Char) (i_val : Int) :
    Option CodedGroupItem :=
  (pyIntBase0 (pyBin i_val)).map (fun v => ⟨pyUpper s_name, v⟩)

/-- from_strings: uppercase the name and parse the value string with
int(s_val) (base 10), then pass it through int(bin(n), base=0). -/
def CodedGroupItem.from_strings (s_name s_val : List Char) :
    Option CodedGroupItem :=
  (pyIntBase10 s_val).bind
    (fun n => (pyIntBase0 (pyBin n)).map (fun v => ⟨pyUpper s_name, v⟩))

/-- Decimal rendering of an integer by the %d format. -/
def pyFormatInt (v : Int) : List Char :=
  if v < 0 then '-' :: natStr 10 (-v).toNat else natStr 10 v.toNat

/-- Coder encode: the utf-8 bytes of "NAME:decimal-value". -/
def CodedGroupItemCoder.encode (g : CodedGroupItem) : List Char :=
  g.name ++ ':' :: pyFormatInt g.val

/-- Python str.split(sep) for a single-character separator: splits on
every occurrence, keeping empty parts. -/
def splitOnChar (sep : Char) : List Char → List (List Char)
  | [] => [[]]
  | c :: cs =>
    if c = sep then [] :: splitOnChar sep cs
    else
      match splitOnChar sep cs with
      | [] => [[c]]
      | g :: gs => (c :: g) :: gs

/-- Coder decode: split on the colon and rebuild through from_strings;
from_strings receives exactly two arguments, so any other number of parts
raises TypeError (none). -/
def CodedGroupItemCoder.decode (s : List Char) : Option CodedGroupItem :=
  match splitOnChar ':' s with
  | [a, b] => CodedGroupItem.from_strings a b
  | _ => none

/-- Coder determinism flag; always True. -/
def CodedGroupItemCoder.is_deterministic : Bool := true

/-- chain_encode: encode each item and join with the two-byte
separator. -/
def CodedGroupItemCoder.chain_encode (groups : List CodedGroupItem) :
    List Char :=
  List.intercalate ['&', '&'] (groups.map CodedGroupItemCoder.encode)

/-- Concrete scenario values used by the witnesses (the spec's section 8
scenario): a time concat dimension and a lat merge dimension. -/
def dTime : Dimension := ⟨"time", CombineOp.CONCAT⟩

/-- Merge dimension named lat of the witness scenario. -/
def dLat : Dimension := ⟨"lat", CombineOp.MERGE⟩

/-- IndexedPosition(value=0, dimsize=100) of the witness scenario. -/
def pTime : PyPosition := IndexedPosition 0 true 100

/-- Position(value=1) of the witness scenario. -/
def pLat : PyPosition := Position 1 false

/-- Witness index built as a dict from the scenario pairs. -/
def idxW : Index := buildIndex [(dTime, pTime), (dLat, pLat)]

/-- Two distinct dimensions sharing the name x: legal as simultaneous dict
keys because their operations differ, but mutually unorderable. -/
def dupMerge : Dimension := ⟨"x", CombineOp.MERGE⟩

/-- The CONCAT-operation dimension named x of the counterexamples. -/
def dupConcat : Dimension := ⟨"x", CombineOp.CONCAT⟩

/-! Helper lemmas about dict lookup, insertion and key uniqueness. -/

/-- A lookup fails exactly when the key is absent. -/
theorem dictGet_eq_none (e : List (Dimension × PyPosition)) (k : Dimension) :
    dictGet e k = none ↔ k ∉ e.map Prod.fst := by
  induction e with
  | nil => simp [dictGet]
  | cons p t ih =>
    by_cases h : p.1 = k
    · simp [dictGet, List.find?_cons_of_pos, h]
    · have hfind : List.find? (fun q => decide (q.1 = k)) (p :: t) =
          List.find? (fun q => decide (q.1 = k)) t :=
        List.find?_cons_of_neg _ (by simp [h])
      simp only [dictGet] at ih ⊢
      rw [hfind]
      simp only [List.map_cons, List.mem_cons, not_or, ih]
      constructor
      · intro ht
        exact ⟨fun hk => h hk.symm, ht⟩
      · intro ht
        exact ht.2

/-- A successful lookup returns an entry of the list. -/
theorem mem_of_dictGet_eq_some {e : List (Dimension × PyPosition)}
    {k : Dimension} {v : PyPosition} (h : dictGet e k = some v) : (k, v) ∈ e := by
  simp only [dictGet, Option.map_eq_some'] at h
  obtain ⟨p, hp, hv⟩ := h
  have hmem := List.mem_of_find?_eq_some hp
  have hkey := List.find?_some hp
  simp only [decide_eq_true_eq] at hkey
  have : p = (k, v) := by
    cases p
    simp only [Prod.mk.injEq]
    exact ⟨hkey, hv⟩
  simpa [this] using hmem

/-- With duplicate-free keys, every entry is found by lookup. -/
theorem dictGet_eq_some_of_mem {e : List (Dimension × PyPosition)}
    {k : Dimension} {v : PyPosition} (hk : (e.map Prod.fst).Nodup)
    (h : (k, v) ∈ e) : dictGet e k = some v := by
  induction e with
  | nil => simp at h
  | cons p t ih =>
    simp only [List.map_cons, List.nodup_cons] at hk
    rcases List.mem_cons.mp h with h1 | h1
    · simp [dictGet, ← h1, List.find?_cons_of_pos]
    · have hne : ¬ p.1 = k := by
        intro he
        exact hk.1 (he ▸ List.mem_map_of_mem Prod.fst h1)
      simpa [dictGet, List.find?_cons_of_neg, decide_eq_false hne]
        using ih hk.2 h1


/-- Lookup is invariant under permutation of a duplicate-free entry
list: this is why dict equality sees equal pair sets identically. -/
theorem dictGet_perm {e e' : List (Dimension × PyPosition)}
    (hp : e.Perm e') (hk : (e.map Prod.fst).Nodup) :
    ∀ k, dictGet e k = dictGet e' k := by
  intro k
  have hk' : (e'.map Prod.fst).Nodup := ((hp.map Prod.fst).nodup_iff).mp hk
  cases h : dictGet e k with
  | none =>
    rw [dictGet_eq_none] at h
    have : k ∉ e'.map Prod.fst := fun hm => h ((hp.map Prod.fst).mem_iff.mpr hm)
    rw [eq_comm, dictGet_eq_none]
    exact this
  | some v =>
    have hmem : (k, v) ∈ e' := hp.mem_iff.mp (mem_of_dictGet_eq_some h)
    rw [eq_comm]
    exact dictGet_eq_some_of_mem hk' hmem

/-- Inserting an absent key appends the pair. -/
theorem dictInsert_of_not_mem {e : List (Dimension × PyPosition)}
    {k : Dimension} (v : PyPosition) (h : k ∉ e.map Prod.fst) :
    dictInsert e k v = e ++ [(k, v)] := by
  simp [dictInsert, h]

/-- Building from pairs with duplicate-free keys just appends them all. -/
theorem buildIndex_foldl (l acc : List (Dimension × PyPosition))
    (h : ((acc ++ l).map Prod.fst).Nodup) :
    l.foldl (fun e p => dictInsert e p.1 p.2) acc = acc ++ l := by
  induction l generalizing acc with
  | nil => simp
  | cons p t ih =>
    have hmem : p.1 ∉ acc.map Prod.fst := by
      simp only [List.map_append, List.nodup_append, List.map_cons] at h
      intro hmm
      exact h.2.2 hmm (List.mem_cons_self _ _)
    have hstep : dictInsert acc p.1 p.2 = acc ++ [p] := by
      rw [dictInsert_of_not_mem _ hmem]
    have hassoc : (acc ++ [p]) ++ t = acc ++ p :: t := by simp
    simp only [List.foldl_cons, hstep]
    rw [ih (acc ++ [p]) (by simpa [hassoc] using h), hassoc]

/-- Entries of an index built from pairs with duplicate-free keys are the
pairs themselves, in insertion order. -/
theorem buildIndex_entries {l : List (Dimension × PyPosition)}
    (h : (l.map Prod.fst).Nodup) : (buildIndex l).entries = l := by
  simpa [buildIndex] using buildIndex_foldl l [] (by simpa using h)

/-- Insertion preserves duplicate-freedom of the key list. -/
theorem dictInsert_keys_nodup {e : List (Dimension × PyPosition)}
    {k : Dimension} (v : PyPosition) (h : (e.map Prod.fst).Nodup) :
    ((dictInsert e k v).map Prod.fst).Nodup := by
  by_cases hm : k ∈ e.map Prod.fst
  · have hsame : (dictInsert e k v).map Prod.fst = e.map Prod.fst := by
      simp only [dictInsert, if_pos hm, List.map_map]
      apply List.map_congr_left
      intro p _
      by_cases hp : p.1 = k <;> simp [hp]
    rw [hsame]; exact h
  · rw [dictInsert_of_not_mem _ hm]
    simp only [List.map_append, List.nodup_append]
    exact ⟨h, List.nodup_singleton _, by simpa using hm⟩

/-- Keys of any dict built by standard insertion are duplicate-free. -/
theorem buildIndex_keys_nodup (l : List (Dimension × PyPosition)) :
    ((buildIndex l).entries.map Prod.fst).Nodup := by
  suffices hgen : ∀ (t acc : List (Dimension × PyPosition)),
      (acc.map Prod.fst).Nodup →
      ((t.foldl (fun e p => dictInsert e p.1 p.2) acc).map Prod.fst).Nodup by
    exact hgen l [] (by simp)
  intro t
  induction t with
  | nil => intro acc h; simpa using h
  | cons p s ih =>
    intro acc h
    exact ih _ (dictInsert_keys_nodup p.2 h)

/-- A duplicate-free list whose elements are all equal has at most one
element. -/
theorem length_le_one_of_nodup_of_all_eq {α : Type} {l : List α}
    (h : l.Nodup) (c : α) (hall : ∀ x ∈ l, x = c) : l.length ≤ 1 := by
  match l with
  | [] => simp
  | [x] => simp
  | x :: y :: t =>
    have hx : x = c := hall x (by simp)
    have hy : y = c := hall y (by simp)
    rw [List.nodup_cons] at h
    exact absurd (by simp [hx, hy]) h.1

/-- Duplicate-free names force duplicate-free keys. -/
theorem keys_nodup_of_names_nodup {e : List (Dimension × PyPosition)}
    (h : (e.map (fun p => p.1.name)).Nodup) : (e.map Prod.fst).Nodup := by
  have : e.map (fun p => p.1.name) = (e.map Prod.fst).map Dimension.name := by
    simp [List.map_map]
  rw [this] at h
  exact List.Nodup.of_map _ h

/-! Claim theorems about find_concat_dim, Dimension ordering and
Position equality. -/

/-- C3: find_concat_dim returns the unique (name, CONCAT) key when
exactly one exists, returns none when none exists, and raises the
integrity error as soon as more than one matching key is present, never
silently picking one. -/
theorem find_concat_dim_cases (i : Index) (nm : String) :
    (concatMatches i nm = [] → Index.find_concat_dim i nm = Except.ok none) ∧
    (∀ d, concatMatches i nm = [d] →
      Index.find_concat_dim i nm = Except.ok (some d) ∧ d.name = nm ∧
        d.operation = CombineOp.CONCAT) ∧
    (1 < (concatMatches i nm).length →
      ∃ msg, Index.find_concat_dim i nm = Except.error msg) := by
  refine ⟨?_, ?_, ?_⟩
  · intro h
    simp [Index.find_concat_dim, h]
  · intro d h
    have hd : d ∈ concatMatches i nm := by rw [h]; exact List.mem_singleton.mpr rfl
    have hfilt := List.of_mem_filter hd
    simp only [Bool.and_eq_true, decide_eq_true_eq] at hfilt
    exact ⟨by simp [Index.find_concat_dim, h], hfilt.1, hfilt.2⟩
  · intro h
    unfold Index.find_concat_dim
    rw [if_pos h]
    exact ⟨_, rfl⟩

/-- Witness for C3: on the concrete scenario index the lookup finds the
unique time concat dimension. -/
theorem find_concat_dim_cases_witness :
    Index.find_concat_dim idxW "time" = Except.ok (some dTime) :=
  (((find_concat_dim_cases idxW "time").2.1) dTime (by decide)).1

/-- C9: on any Index built only through standard dict insertion the keys
are duplicate-free, at most one key can equal (name, CONCAT), and
find_concat_dim never raises the multiple-match integrity error. -/
theorem find_concat_dim_no_integrity_error
    (l : List (Dimension × PyPosition)) (nm : String) :
    ∃ r, Index.find_concat_dim (buildIndex l) nm = Except.ok r := by
  have hnd : ((buildIndex l).entries.map Prod.fst).Nodup := buildIndex_keys_nodup l
  have hfn : (concatMatches (buildIndex l) nm).Nodup := List.Nodup.filter _ hnd
  have hall : ∀ d ∈ concatMatches (buildIndex l) nm,
      d = ⟨nm, CombineOp.CONCAT⟩ := by
    intro d hd
    have hfilt := List.of_mem_filter hd
    simp only [Bool.and_eq_true, decide_eq_true_eq] at hfilt
    cases d
    simp only [Dimension.mk.injEq]
    exact ⟨hfilt.1, hfilt.2⟩
  have hlen : (concatMatches (buildIndex l) nm).length ≤ 1 :=
    length_le_one_of_nodup_of_all_eq hfn _ hall
  unfold Index.find_concat_dim
  rw [if_neg (by omega)]
  by_cases h0 : (concatMatches (buildIndex l) nm).length = 0
  · rw [if_pos h0]; exact ⟨none, rfl⟩
  · rw [if_neg h0]; exact ⟨_, rfl⟩

/-- Counterexample to C4: two Dimensions with equal names and different
operations are not comparable; the generated comparison raises TypeError
because CombineOp members are unordered. -/
theorem dimension_compare_raises :
    Dimension.lt? dupMerge dupConcat = none := by decide

/-- C4 amended: Dimension comparison compares name first and orders any
two Dimensions with distinct names; equal Dimensions are not-less; but
two Dimensions with the same name and different CombineOp raise
TypeError.  Equality and hash remain structural over both fields. -/
theorem dimension_compare_spec (a b : Dimension) :
    (a.name ≠ b.name → Dimension.lt? a b = some (decide (a.name < b.name))) ∧
    (a = b → Dimension.lt? a b = some false) ∧
    (a.name = b.name → a.operation ≠ b.operation → Dimension.lt? a b = none) ∧
    (Dimension.hashKey a = Dimension.hashKey b ↔ a = b) := by
  refine ⟨?_, ?_, ?_, ?_⟩
  · intro h; simp [Dimension.lt?, h]
  · intro h; subst h; simp [Dimension.lt?]
  · intro h1 h2; simp [Dimension.lt?, h1, h2, CombineOp.lt?]
  · cases a; cases b
    simp [Dimension.hashKey, Dimension.mk.injEq, Prod.ext_iff]

/-- Witness for C4: dimensions with distinct names compare by name, and
the same-name different-operation pair raises. -/
theorem dimension_compare_spec_witness :
    Dimension.lt? ⟨"a", CombineOp.MERGE⟩ ⟨"b", CombineOp.CONCAT⟩ =
      some (decide (("a" : String) < "b")) :=
  (dimension_compare_spec ⟨"a", CombineOp.MERGE⟩ ⟨"b", CombineOp.CONCAT⟩).1
    (by decide)

/-- Counterexample to C5: an IndexedPosition and a plain Position with
equal (value, indexed) fields do not compare equal; the generated
dataclass equality requires identical classes. -/
theorem position_cross_class_not_equal :
    pyPosEq (Position 0 true) (IndexedPosition 0 true 0) = false := by decide

/-- C5 amended: a plain Position never equals an IndexedPosition whatever
the field values, their hash inputs always differ, and dimsize is part of
the IndexedPosition comparison key rather than excluded from it. -/
theorem position_equality_class_sensitive (v : Int) (i : Bool) (d : Int) :
    pyPosEq (Position v i) (IndexedPosition v i d) = false ∧
    PyPosition.hashKey (Position v i) ≠
      PyPosition.hashKey (IndexedPosition v i d) ∧
    pyPosEq (IndexedPosition v i d) (IndexedPosition v i (d + 1)) = false := by
  refine ⟨?_, ?_, ?_⟩
  · simp [pyPosEq, Position, IndexedPosition]
  · simp [PyPosition.hashKey, Position, IndexedPosition]
  · simp only [pyPosEq, IndexedPosition, decide_eq_false_iff_not]
    intro h
    simp only [PyPosition.mkIndexed.injEq] at h
    omega

/-! The item sort: when all dimension names are distinct every executed
comparison is defined and orders the items by name. -/

/-- Items whose dimensions have different names compare by dimension
name. -/
theorem pairLt?_of_name_ne {a b : Dimension × PyPosition}
    (h : a.1.name ≠ b.1.name) :
    pairLt? a b = some (decide (a.1.name < b.1.name)) := by
  have hd : a.1 ≠ b.1 := fun he => h (congrArg Dimension.name he)
  simp [pairLt?, Dimension.lt?, hd, h]

/-- Inserting an item whose name is fresh into a name-sorted list
succeeds and produces a name-sorted permutation. -/
theorem orderedInsertPy_ok (a : Dimension × PyPosition) :
    ∀ (m : List (Dimension × PyPosition)), List.Sorted nameLtP m →
    (∀ b ∈ m, a.1.name ≠ b.1.name) →
    ∃ t, orderedInsertPy a m = some t ∧ t.Perm (a :: m) ∧
      List.Sorted nameLtP t := by
  intro m
  induction m with
  | nil =>
    intro _ _
    exact ⟨[a], rfl, List.Perm.refl _, List.sorted_singleton a⟩
  | cons b m ih =>
    intro hsort hne
    have hnab : a.1.name ≠ b.1.name := hne b (List.mem_cons_self _ _)
    have hcmp := pairLt?_of_name_ne hnab
    rw [List.sorted_cons] at hsort
    by_cases hab : a.1.name < b.1.name
    · refine ⟨a :: b :: m, ?_, List.Perm.refl _, ?_⟩
      · simp [orderedInsertPy, hcmp, hab]
      · rw [List.sorted_cons]
        refine ⟨?_, List.sorted_cons.mpr hsort⟩
        intro c hc
        rcases List.mem_cons.mp hc with rfl | hc2
        · exact hab
        · exact lt_trans hab (hsort.1 c hc2)
    · obtain ⟨t, ht, htp, hts⟩ :=
        ih hsort.2 (fun c hc => hne c (List.mem_cons_of_mem _ hc))
      have hba : b.1.name < a.1.name := (lt_or_gt_of_ne hnab).resolve_left hab
      refine ⟨b :: t, ?_, ?_, ?_⟩
      · simp [orderedInsertPy, hcmp, hab, ht]
      · exact (htp.cons b).trans (List.Perm.swap a b m)
      · rw [List.sorted_cons]
        refine ⟨?_, hts⟩
        intro c hc
        rcases List.mem_cons.mp (htp.mem_iff.mp hc) with rfl | hc2
        · exact hba
        · exact hsort.1 c hc2

/-- Sorting a list of items with pairwise-distinct dimension names never
raises and yields a name-sorted permutation of the input. -/
theorem sortPy_ok :
    ∀ (l : List (Dimension × PyPosition)),
    (l.map (fun p => p.1.name)).Nodup →
    ∃ m, sortPy l = some m ∧ m.Perm l ∧ List.Sorted nameLtP m := by
  intro l
  induction l with
  | nil => exact fun _ => ⟨[], rfl, List.Perm.refl _, List.sorted_nil⟩
  | cons a l ih =>
    intro hn
    simp only [List.map_cons, List.nodup_cons] at hn
    obtain ⟨m, hm, hp, hs⟩ := ih hn.2
    have hfresh : ∀ b ∈ m, a.1.name ≠ b.1.name := by
      intro b hb hne
      apply hn.1
      rw [hne]
      exact List.mem_map_of_mem _ (hp.mem_iff.mp hb)
    obtain ⟨t, ht, htp, hts⟩ := orderedInsertPy_ok a m hs hfresh
    refine ⟨t, ?_, ?_, hts⟩
    · simp [sortPy, hm, ht]
    · exact htp.trans (hp.cons a)

/-- A permutation between two name-sorted item lists is the identity. -/
theorem sorted_eq_of_perm {m₁ m₂ : List (Dimension × PyPosition)}
    (hp : m₁.Perm m₂) (h1 : List.Sorted nameLtP m₁)
    (h2 : List.Sorted nameLtP m₂) : m₁ = m₂ := by
  haveI : IsAntisymm (Dimension × PyPosition) nameLtP := by
    refine ⟨?_⟩
    intro a b hab hba
    simp only [nameLtP] at hab hba
    exact absurd hba (lt_asymm hab)
  exact List.eq_of_perm_of_sorted hp h1 h2

/-! Claim theorems about Index identity and serialization. -/

/-- C1 amended: building an Index from pairs with pairwise-distinct
Dimensions in any two insertion orders yields equal dicts, and when the
Dimension names are also pairwise distinct the two hashes exist, are
equal, and are computed from the name-sorted pair sequence.  (When two
distinct Dimensions share a name, hashing raises TypeError instead,
because CombineOp members are unordered.) -/
theorem index_identity_insertion_order_independent
    (l l' : List (Dimension × PyPosition)) (hp : l.Perm l')
    (hd : (l.map Prod.fst).Nodup) :
    Index.pyEq (buildIndex l) (buildIndex l') ∧
    ((l.map (fun p => p.1.name)).Nodup →
      Index.hashKey (buildIndex l) = Index.hashKey (buildIndex l') ∧
      ∃ m, Index.getstate (buildIndex l) = some m ∧ m.Perm l ∧
        List.Sorted nameLtP m) := by
  have hd' : (l'.map Prod.fst).Nodup := ((hp.map Prod.fst).nodup_iff).mp hd
  have he : (buildIndex l).entries = l := buildIndex_entries hd
  have he' : (buildIndex l').entries = l' := buildIndex_entries hd'
  constructor
  · intro k
    rw [he, he']
    exact dictGet_perm hp hd k
  · intro hn
    have hn' : (l'.map (fun p => p.1.name)).Nodup :=
      ((hp.map _).nodup_iff).mp hn
    obtain ⟨m, hm, hmp, hms⟩ := sortPy_ok l hn
    obtain ⟨m', hm', hmp', hms'⟩ := sortPy_ok l' hn'
    have hmm : m = m' := sorted_eq_of_perm (hmp.trans (hp.trans hmp'.symm)) hms hms'
    refine ⟨?_, m, ?_, hmp, hms⟩
    · simp only [Index.hashKey, Index.getstate, he, he', hm, hm', hmm]
    · simp only [Index.getstate, he, hm]

/-- Witness for C1: the two insertion orders of the scenario pairs give
the same hash. -/
theorem index_identity_witness :
    Index.hashKey (buildIndex [(dLat, pLat), (dTime, pTime)]) =
      Index.hashKey (buildIndex [(dTime, pTime), (dLat, pLat)]) :=
  ((index_identity_insertion_order_independent
      [(dLat, pLat), (dTime, pTime)] [(dTime, pTime), (dLat, pLat)]
      (List.Perm.swap (dTime, pTime) (dLat, pLat) [])
      (by decide)).2 (by decide)).1

/-- Counterexample to C1: the pairs (x, MERGE) and (x, CONCAT) are
pairwise-distinct Dimensions, yet hashing the Index built from them
raises TypeError in either insertion order, so the two builds do not
have (equal) hashes. -/
theorem index_hash_raises_on_shared_name :
    Index.hashKey (buildIndex [(dupMerge, pLat), (dupConcat, pTime)]) = none ∧
    Index.hashKey (buildIndex [(dupConcat, pTime), (dupMerge, pLat)]) = none := by
  decide

/-- C2 amended: for every Index whose keys have pairwise-distinct names,
getstate succeeds and applying setstate to it yields an Index equal to
the original with an identical hash.  (An Index holding two same-named
keys cannot be serialized: getstate raises TypeError.) -/
theorem index_state_round_trip (i : Index)
    (hn : (i.entries.map (fun p => p.1.name)).Nodup) :
    ∃ st, Index.getstate i = some st ∧
      Index.pyEq (Index.setstate st) i ∧
      Index.hashKey (Index.setstate st) = Index.hashKey i := by
  obtain ⟨st, hst, hperm, hsort⟩ := sortPy_ok i.entries hn
  have hstn : (st.map (fun p => p.1.name)).Nodup :=
    ((hperm.map _).nodup_iff).mpr hn
  have hstk : (st.map Prod.fst).Nodup := keys_nodup_of_names_nodup hstn
  have hent : (Index.setstate st).entries = st := buildIndex_entries hstk
  refine ⟨st, hst, ?_, ?_⟩
  · intro k
    rw [hent]
    exact dictGet_perm hperm hstk k
  · obtain ⟨m2, hm2, hp2, hs2⟩ := sortPy_ok st hstn
    have hm2st : m2 = st := sorted_eq_of_perm hp2 hs2 hsort
    simp only [Index.hashKey, Index.getstate, hent, hm2, hm2st, hst]

/-- Witness for C2: the scenario index round-trips through its state. -/
theorem index_state_round_trip_witness :
    ∃ st, Index.getstate idxW = some st ∧
      Index.pyEq (Index.setstate st) idxW ∧
      Index.hashKey (Index.setstate st) = Index.hashKey idxW :=
  index_state_round_trip idxW (by decide)

/-- Counterexample to C2: an Index holding two keys that share a name is
a legal dict but cannot be serialized at all, since getstate raises
TypeError while sorting the items. -/
theorem index_getstate_raises_on_shared_name :
    Index.getstate (buildIndex [(dupMerge, pLat), (dupConcat, pTime)]) = none := by
  decide

/-! Correctness of the digit printers and parsers. -/

/-- Digit characters parse back to their value. -/
theorem digitVal?_digitChar : ∀ d, d < 16 → digitVal? (digitChar d) = some d := by
  decide

/-- The accumulating parser distributes over append. -/
theorem parseDigitsAux_append (b : Nat) (xs ys : List Char) :
    ∀ acc, parseDigitsAux b acc (xs ++ ys) =
      (parseDigitsAux b acc xs).bind (fun a => parseDigitsAux b a ys) := by
  induction xs with
  | nil => intro acc; simp [parseDigitsAux]
  | cons c cs ih =>
    intro acc
    cases h : digitVal? c with
    | none => simp [parseDigitsAux, h]
    | some d =>
      by_cases hd : d < b
      · simp [parseDigitsAux, h, hd, ih]
      · simp [parseDigitsAux, h, hd]

/-- Parsing the big-endian digit characters of L performs a Horner
evaluation: the accumulator is weighted by the base to the digit count
and the digits contribute their little-endian value. -/
theorem parseDigitsAux_rev_digits {b : Nat} (hb16 : b ≤ 16) :
    ∀ (L : List Nat), (∀ d ∈ L, d < b) → ∀ acc,
      parseDigitsAux b acc (L.reverse.map digitChar) =
        some (acc * b ^ L.length + Nat.ofDigits b L) := by
  intro L
  induction L with
  | nil => intro _ acc; simp [parseDigitsAux, Nat.ofDigits_nil]
  | cons d L ih =>
    intro hd acc
    have hdb : d < b := hd d (List.mem_cons_self _ _)
    have hd16 : d < 16 := lt_of_lt_of_le hdb hb16
    rw [List.reverse_cons, List.map_append, parseDigitsAux_append,
      ih (fun x hx => hd x (List.mem_cons_of_mem _ hx)) acc]
    have hstep : parseDigitsAux b (acc * b ^ L.length + Nat.ofDigits b L)
        [digitChar d] =
        some (b * (acc * b ^ L.length + Nat.ofDigits b L) + d) := by
      simp [parseDigitsAux, digitVal?_digitChar d hd16, hdb]
    simp only [List.map_cons, List.map_nil, Option.some_bind, hstep,
      Option.some.injEq]
    rw [Nat.ofDigits_cons]
    simp only [List.length_cons]
    ring

/-- The digit string of n is never empty. -/
theorem natStr_ne_nil (b n : Nat) : natStr b n ≠ [] := by
  rw [natStr]
  by_cases hn : n = 0
  · simp [hn]
  · rw [if_neg hn]
    intro h
    exact (Nat.digits_ne_nil_iff_ne_zero.mpr hn)
      (List.reverse_eq_nil_iff.mp (List.map_eq_nil_iff.mp h))

/-- Parsing the digit string of n in its own base recovers n. -/
theorem parseDigits_natStr {b : Nat} (hb : 2 ≤ b) (hb16 : b ≤ 16) (n : Nat) :
    parseDigits b (natStr b n) = some n := by
  by_cases hn : n = 0
  · subst hn
    have h0 : digitVal? '0' = some 0 := by decide
    have hb0 : 0 < b := by omega
    simp [natStr, parseDigits, parseDigitsAux, h0, hb0]
  · have hbound : ∀ d ∈ Nat.digits b n, d < b :=
      fun d hd => Nat.digits_lt_base (by omega) hd
    have hparse := parseDigitsAux_rev_digits hb16 (Nat.digits b n) hbound 0
    rw [Nat.ofDigits_digits, zero_mul, zero_add] at hparse
    rw [natStr, if_neg hn]
    obtain ⟨c, cs, hL⟩ := List.exists_cons_of_ne_nil
      (show (Nat.digits b n).reverse.map digitChar ≠ [] by
        intro hnil
        exact (Nat.digits_ne_nil_iff_ne_zero.mpr hn)
          (List.reverse_eq_nil_iff.mp (List.map_eq_nil_iff.mp hnil)))
    rw [hL]
    show parseDigitsAux b 0 (c :: cs) = some n
    rw [← hL]
    exact hparse

/-- The base-detecting parser on a 0b-prefixed body reads the rest as a
binary magnitude. -/
theorem pyIntBase0_zero_b (r : List Char) :
    pyIntBase0 ('0' :: 'b' :: r) = (parseDigits 2 r).map (applySign false) := rfl

/-- int(bin(v), base=0) recovers every nonnegative v. -/
theorem pyIntBase0_pyBin {v : Int} (hv : 0 ≤ v) :
    pyIntBase0 (pyBin v) = some v := by
  rw [pyBin, if_neg (by omega), pyIntBase0_zero_b,
    parseDigits_natStr (by omega) (by omega) v.toNat]
  simp [applySign, Int.toNat_of_nonneg hv]

/-- Every character of a digit string is a digit character. -/
theorem natStr_digit_chars {b n : Nat} (hb : 2 ≤ b) (hb16 : b ≤ 16) :
    ∀ c ∈ natStr b n, ∃ d, d < 16 ∧ c = digitChar d := by
  intro c hc
  by_cases hn : n = 0
  · subst hn
    simp [natStr] at hc
    exact ⟨0, by omega, by rw [hc]; decide⟩
  · rw [natStr, if_neg hn] at hc
    obtain ⟨d, hd, hcd⟩ := List.mem_map.mp hc
    exact ⟨d, lt_of_lt_of_le
      (Nat.digits_lt_base (by omega) (List.mem_reverse.mp hd)) hb16, hcd.symm⟩

/-- Digit strings contain no sign characters and no colon. -/
theorem natStr_not_special {b n : Nat} (hb : 2 ≤ b) (hb16 : b ≤ 16) :
    ∀ c ∈ natStr b n, c ≠ '-' ∧ c ≠ '+' ∧ c ≠ ':' := by
  intro c hc
  obtain ⟨d, hd16, rfl⟩ := natStr_digit_chars hb hb16 c hc
  have hall : ∀ e, e < 16 →
      digitChar e ≠ '-' ∧ digitChar e ≠ '+' ∧ digitChar e ≠ ':' := by decide
  exact hall d hd16

/-- Rendering a nonnegative value and parsing it back with int() in base
10 recovers the value. -/
theorem pyIntBase10_pyFormatInt {v : Int} (hv : 0 ≤ v) :
    pyIntBase10 (pyFormatInt v) = some v := by
  rw [pyFormatInt, if_neg (by omega)]
  obtain ⟨c, cs, hL⟩ := List.exists_cons_of_ne_nil (natStr_ne_nil 10 v.toNat)
  have hc := natStr_not_special (b := 10) (by omega) (by omega) c
    (by rw [hL]; exact List.mem_cons_self c cs)
  have hsign : pySign (natStr 10 v.toNat) = (false, natStr 10 v.toNat) := by
    rw [hL]
    simp [pySign, hc.1, hc.2.1]
  simp only [pyIntBase10, hsign]
  rw [parseDigits_natStr (by omega) (by omega)]
  simp [applySign, Int.toNat_of_nonneg hv]

/-! The split, the uppercasing and the codec round trip. -/

/-- Splitting a string free of the separator leaves it whole. -/
theorem splitOnChar_of_not_mem {sep : Char} {l : List Char} (h : sep ∉ l) :
    splitOnChar sep l = [l] := by
  induction l with
  | nil => rfl
  | cons c t ih =>
    simp only [List.mem_cons, not_or] at h
    have hcs : ¬ c = sep := fun hc => h.1 hc.symm
    simp [splitOnChar, hcs, ih h.2]

/-- Splitting text ++ sep ++ text yields exactly the two parts. -/
theorem splitOnChar_append {sep : Char} {xs ys : List Char}
    (h1 : sep ∉ xs) (h2 : sep ∉ ys) :
    splitOnChar sep (xs ++ sep :: ys) = [xs, ys] := by
  induction xs with
  | nil =>
    simp [splitOnChar, splitOnChar_of_not_mem h2]
  | cons c t ih =>
    simp only [List.mem_cons, not_or] at h1
    have hcs : ¬ c = sep := fun hc => h1.1 hc.symm
    simp only [List.cons_append, splitOnChar, if_neg hcs, List.append_eq,
      ih h1.2]

/-- Uppercasing a character twice is the same as doing it once. -/
theorem toUpper_idem (c : Char) : c.toUpper.toUpper = c.toUpper := by
  by_cases h : c.toNat ≥ 97 ∧ c.toNat ≤ 122
  · obtain ⟨n, hn, h1, h2⟩ : ∃ n, c = Char.ofNat n ∧ 97 ≤ n ∧ n ≤ 122 :=
      ⟨c.toNat, (Char.ofNat_toNat c).symm, h.1, h.2⟩
    subst hn
    interval_cases n <;> decide
  · have hcc : c.toUpper = c := by
      simp only [Char.toUpper]
      rw [if_neg h]
    rw [hcc, hcc]

/-- Uppercasing never produces a colon from a non-colon character. -/
theorem toUpper_eq_colon {c : Char} (h : c.toUpper = ':') : c = ':' := by
  by_cases hl : c.toNat ≥ 97 ∧ c.toNat ≤ 122
  · exfalso
    obtain ⟨n, hn, h1, h2⟩ : ∃ n, c = Char.ofNat n ∧ 97 ≤ n ∧ n ≤ 122 :=
      ⟨c.toNat, (Char.ofNat_toNat c).symm, hl.1, hl.2⟩
    subst hn
    revert h
    interval_cases n <;> decide
  · have hcc : c.toUpper = c := by
      simp only [Char.toUpper]
      rw [if_neg hl]
    rwa [hcc] at h

/-- Python name normalization is idempotent. -/
theorem pyUpper_idem (s : List Char) : pyUpper (pyUpper s) = pyUpper s := by
  simp only [pyUpper, List.map_map]
  apply List.map_congr_left
  intro c _
  exact toUpper_idem c

/-- Uppercasing a colon-free name keeps it colon-free. -/
theorem colon_not_mem_pyUpper {s : List Char} (h : ':' ∉ s) :
    ':' ∉ pyUpper s := by
  intro hc
  obtain ⟨c, hcs, hcc⟩ := List.mem_map.mp hc
  exact h (toUpper_eq_colon hcc ▸ hcs)

/-! Claim theorems about the coded-group-item codec. -/

/-- Counterexample to C6: from_strings does not accept the hex literal
0xa; its value parser is int(s_val), which is fixed to base 10, so the
call raises ValueError instead of matching from_strings("a", "10"). -/
theorem from_strings_hex_raises :
    CodedGroupItem.from_strings ['a'] ['0', 'x', 'a'] = none := by decide

/-- C6 amended: from_strings parses its value with the fixed base-10
int() grammar: the decimal string "10" succeeds and produces the item
("A", 10), while the prefixed literals "0xa" and "0b1010" both raise
ValueError. -/
theorem from_strings_base10_only :
    CodedGroupItem.from_strings ['a'] ['1', '0'] = some ⟨['A'], 10⟩ ∧
    CodedGroupItem.from_strings ['a'] ['0', 'x', 'a'] = none ∧
    CodedGroupItem.from_strings ['a'] ['0', 'b', '1', '0', '1', '0'] = none := by
  refine ⟨?_, by decide, by decide⟩
  have h10 : pyIntBase10 ['1', '0'] = some 10 := by decide
  simp only [CodedGroupItem.from_strings]
  rw [h10, Option.some_bind, pyIntBase0_pyBin (by omega)]
  decide

/-- C7: for every name free of the colon and the ampersand and every
nonnegative value, decoding the encoding of from_literal(name, value)
returns exactly from_literal(name, value): the codec round trip is the
identity on encoded items after the (idempotent) name normalization. -/
theorem coded_item_round_trip (name : List Char) (v : Int)
    (h1 : ':' ∉ name) (h2 : '&' ∉ name) (h3 : 0 ≤ v) :
    ∃ it, CodedGroupItem.from_literal name v = some it ∧
      CodedGroupItemCoder.decode (CodedGroupItemCoder.encode it) = some it := by
  refine ⟨⟨pyUpper name, v⟩, ?_, ?_⟩
  · simp only [CodedGroupItem.from_literal]
    rw [pyIntBase0_pyBin h3]
    rfl
  · have hcolon_name : ':' ∉ pyUpper name := colon_not_mem_pyUpper h1
    have hcolon_val : ':' ∉ pyFormatInt v := by
      rw [pyFormatInt, if_neg (by omega)]
      intro hc
      exact (natStr_not_special (by omega) (by omega) ':' hc).2.2 rfl
    have hsplit : splitOnChar ':' (pyUpper name ++ ':' :: pyFormatInt v) =
        [pyUpper name, pyFormatInt v] := splitOnChar_append hcolon_name hcolon_val
    show CodedGroupItemCoder.decode (pyUpper name ++ ':' :: pyFormatInt v) = _
    simp only [CodedGroupItemCoder.decode, hsplit]
    simp only [CodedGroupItem.from_strings]
    rw [pyIntBase10_pyFormatInt h3, Option.some_bind, pyIntBase0_pyBin h3]
    simp [pyUpper_idem]

/-- Witness for C7: the round trip at name a and value 10. -/
theorem coded_item_round_trip_witness :
    ∃ it, CodedGroupItem.from_literal ['a'] 10 = some it ∧
      CodedGroupItemCoder.decode (CodedGroupItemCoder.encode it) = some it :=
  coded_item_round_trip ['a'] 10 (by decide) (by decide) (by decide)

/-- C8: chain-encoding a two-item list always yields the first encoding,
the two ampersand separator bytes, then the second encoding; the
encoder is a pure function of the items, so repeated calls on equal
inputs are bit-identical. -/
theorem chain_encode_pair (i1 i2 : CodedGroupItem) :
    CodedGroupItemCoder.chain_encode [i1, i2] =
      CodedGroupItemCoder.encode i1 ++ '&' :: '&' ::
        CodedGroupItemCoder.encode i2 := by
  simp [CodedGroupItemCoder.chain_encode, List.intercalate, List.intersperse]

/-- C10: chain_encode returns the empty byte string on the empty item
sequence and exactly one bare encoding, with no separator bytes, on a
singleton. -/
theorem chain_encode_nil_and_singleton :
    CodedGroupItemCoder.chain_encode [] = [] ∧
    ∀ it, CodedGroupItemCoder.chain_encode [it] =
      CodedGroupItemCoder.encode it := by
  constructor
  · rfl
  · intro it
    simp [CodedGroupItemCoder.chain_encode, List.intercalate, List.intersperse]

end PangeoForge
